import Mathlib

/-!
Verification of the array_nd_ref reference wrapper (array_nd_ref.hpp).

The wrapper `array_nd_ref<A>` holds a single pointer `a` to the first
element of a C array of element type T and extents [E1,...,ER].  We model
the scalar storage as a flat memory `Mem : Nat → Int` (elements of the
scalar type are modelled as integers, covering the int/bool/char tests),
a wrapper handle as a `Nat` offset into that memory (in scalar units),
and the compile time type parameter A as a shape `List Nat` of extents.
A wrapper of shape `e :: rest` views the contiguous run of `e * rest.prod`
scalars starting at its handle; subarray `i` starts at `handle + i * rest.prod`.
This matches the implementation note in the header: the wrapper holds `X*`
so that it can view `X[N]` windows into a larger run.

Each operation below is transcribed from the corresponding member or free
function of array_nd_ref.hpp, with the `if constexpr (rank == 1)` base
case as the one element shape `[e]` and the recursive case delegating
through `operator()(i)` as recursion on the tail of the shape.
-/

/-- Scalar storage: a flat memory mapping offsets to scalar values. -/
abbrev Mem := Nat → Int

/-- Pointwise store of one scalar. -/
def Mem.update (m : Mem) (p : Nat) (v : Int) : Mem :=
  fun q => if q = p then v else m q

/-- Ascending `for (i = 0; i < n; ++i) body(i)` loop over memory,
mirroring the loops in fill, operator= and swap_ranges. -/
def forUp : Nat → (Nat → Mem → Mem) → Mem → Mem
  | 0, _, m => m
  | k + 1, body, m => body k (forUp k body m)

/-- The run of `n` scalars starting at offset `h`. -/
def readRun : Nat → Nat → Mem → List Int
  | _, 0, _ => []
  | h, n + 1, m => m h :: readRun (h + 1) n m

/-- Store a list of scalars at consecutive offsets starting at `h`. -/
def writeRun (m : Mem) (h : Nat) : List Int → Mem
  | [] => m
  | v :: vs => writeRun (Mem.update m h v) (h + 1) vs

/-- Concatenation of `f 0 ++ f 1 ++ ... ++ f (n-1)`. -/
def catRange : Nat → (Nat → List Int) → List Int
  | 0, _ => []
  | k + 1, f => catRange k f ++ f k

/-- The wrapper: runtime state is exactly one field, the handle `a`
(`pointer a;` in the source). -/
structure array_nd_ref where
  a : Nat
deriving DecidableEq

/-- A C array type has rank at least one and no zero extent
(`requires std::is_array_v<A> && std::extent_v<A> != 0`, and inner
extents of a C array type are likewise nonzero). -/
abbrev ValidShape (sh : List Nat) : Prop := sh ≠ [] ∧ ∀ d ∈ sh, 0 < d

/-- `array_nd_ref::fill(value_type const& e)`: rank 1 does
`std::fill_n(a, extent, e)`; higher rank loops `operator()(i).fill(e)`. -/
def fill : List Nat → Nat → Int → Mem → Mem
  | [], _, _, m => m
  | [e], h, v, m => forUp e (fun i mm => Mem.update mm (h + i) v) m
  | e :: r :: rest, h, v, m =>
      forUp e (fun i mm => fill (r :: rest) (h + i * (r :: rest).prod) v mm) m

/-- `array_nd_ref::operator=(array_type const& rhs)`: rank 1 does
`std::copy(rhs, rhs+extent, a)` (ascending element copies); higher rank
loops `operator()(i) = rhs[i]`.  The right hand side array lives in the
same memory at offset `src`, so aliasing (self assignment) is modelled. -/
def opAssign : List Nat → Nat → Nat → Mem → Mem
  | [], _, _, m => m
  | [e], dst, src, m => forUp e (fun i mm => Mem.update mm (dst + i) (mm (src + i))) m
  | e :: r :: rest, dst, src, m =>
      forUp e (fun i mm =>
        opAssign (r :: rest) (dst + i * (r :: rest).prod) (src + i * (r :: rest).prod) mm) m

/-- `std::swap` on two scalar locations: `tmp = *p; *p = *q; *q = tmp`. -/
def swapScalar (p q : Nat) (m : Mem) : Mem :=
  let t := m p
  Mem.update (Mem.update m p (m q)) q t

/-- `array_nd_ref::swap(A& b)`: `std::swap_ranges(a, a+extent, b)`,
which swaps place `i` with place `i` ascending; for rank above 1 each
place is a subarray and `std::swap` on arrays recurses element wise. -/
def swapDeep : List Nat → Nat → Nat → Mem → Mem
  | [], _, _, m => m
  | [e], x, y, m => forUp e (fun i mm => swapScalar (x + i) (y + i) mm) m
  | e :: r :: rest, x, y, m =>
      forUp e (fun i mm =>
        swapDeep (r :: rest) (x + i * (r :: rest).prod) (y + i * (r :: rest).prod) mm) m

/-- Member `swap(array_nd_ref b)`: the body runs `std::swap(a, b.a)` on
the handle of `this` and the handle of the value parameter `b`; it
returns the final states of the pair (this, b). -/
def array_nd_ref.swapRef (x b : array_nd_ref) : array_nd_ref × array_nd_ref :=
  (⟨b.a⟩, ⟨x.a⟩)

/-- Call site effect of `x.swap(y)` on lvalue wrappers x and y: `this`
(x) is updated in place, while `y` was copied into the value parameter
`b`, so the caller sees `y` unchanged. -/
def callSwapRefMember (x y : array_nd_ref) : array_nd_ref × array_nd_ref :=
  ((array_nd_ref.swapRef x y).1, y)

/-- Call site effect of the free `swap(array_nd_ref<A> x, array_nd_ref<A> y)`
on two lvalue wrappers: both parameters are taken by value, the body
`x.swap(y)` mutates only the local copies, so the caller sees both
wrappers unchanged. -/
def callSwapRefFree (x y : array_nd_ref) : array_nd_ref × array_nd_ref :=
  (x, y)

/-- `operator==(array_nd_ref<A> x, array_nd_ref<Ac> y)`: rank 1 loops
`if (x(i) != y(i)) return false; return true;` over scalars; higher rank
loops `if (!(x(i) == y(i))) return false;` over wrapped subarrays. -/
def eqOp : List Nat → Nat → Nat → Mem → Bool
  | [], _, _, _ => true
  | [e], x, y, m => (List.range e).all (fun i => decide (m (x + i) = m (y + i)))
  | e :: r :: rest, x, y, m =>
      (List.range e).all (fun i =>
        eqOp (r :: rest) (x + i * (r :: rest).prod) (y + i * (r :: rest).prod) m)

/-- `std::lexicographical_compare(x.begin(), x.end(), y.begin(), y.end())`
on two scalar runs of the same length `n` (rank 1 ranges have equal
static extents). -/
def lexScalars : Nat → Nat → Nat → Mem → Bool
  | 0, _, _, _ => false
  | k + 1, x, y, m =>
      if m x < m y then true
      else if m y < m x then false
      else lexScalars k (x + 1) (y + 1) m

/-- The rank-above-1 loop of `operator<`: for each subarray pair in
ascending order, `if (x(i) < y(i)) return true; else if (x(i) > y(i))
return false;` and `return false` after the loop.  `cmp` is the subarray
comparison and `s` the subarray stride. -/
def ltLoop (cmp : Nat → Nat → Bool) (s : Nat) : Nat → Nat → Nat → Bool
  | 0, _, _ => false
  | k + 1, x, y =>
      if cmp x y then true
      else if cmp y x then false
      else ltLoop cmp s k (x + s) (y + s)

/-- `operator<(array_nd_ref<A> x, array_nd_ref<Ac> y)`: rank 1 is
`std::lexicographical_compare`; higher rank is the subarray loop
(`x(i) > y(i)` is `operator>` which is `y(i) < x(i)`). -/
def ltOp : List Nat → Nat → Nat → Mem → Bool
  | [], _, _, _ => false
  | [e], x, y, m => lexScalars e x y m
  | e :: r :: rest, x, y, m =>
      ltLoop (fun p q => ltOp (r :: rest) p q m) ((r :: rest).prod) e x y

/-- `operator[](size_t I)`: `return a[I];` — a plain reference to
subarray `I`, at offset `handle + I * (inner size)`. -/
def indexOp (sh : List Nat) (h I : Nat) : Nat :=
  h + I * sh.tail.prod

/-- `operator()(size_t I)`: rank 1 returns the scalar reference `a[I]`;
higher rank returns `array_nd_ref{a[I]}`, a wrapper whose handle is the
decay of subarray `I`.  Either way the designated offset is returned. -/
def callOp (sh : List Nat) (h I : Nat) : Nat :=
  match sh with
  | [] => h
  | [_] => h + I
  | _ :: rest => h + I * rest.prod

/-- `at(size_t I)`: `if (I >= extent) throw std::out_of_range(...); return a[I];` -/
def atOp (sh : List Nat) (h I : Nat) : Except String Nat :=
  if I ≥ sh.headD 0 then Except.error "array_nd_ref::at"
  else Except.ok (h + I * sh.tail.prod)

/-- `get<I>(array_nd_ref<A>& a)`: `return a[I];` (the compile time
constraint `I < std::extent_v<A>` appears as a theorem hypothesis). -/
def getOp (sh : List Nat) (h I : Nat) : Nat :=
  h + I * sh.tail.prod

/-- Member call `w.fill(v)` as a transformer of the pair
(wrapper object, memory): the body writes through the handle and never
assigns the field `a`. -/
def array_nd_ref.fillM (w : array_nd_ref) (sh : List Nat) (v : Int) (m : Mem) :
    array_nd_ref × Mem :=
  (w, fill sh w.a v m)

/-- Member call `w = rhs` (deep assignment from an array at offset `src`)
as a transformer of the pair (wrapper object, memory). -/
def array_nd_ref.assignM (w : array_nd_ref) (sh : List Nat) (src : Nat) (m : Mem) :
    array_nd_ref × Mem :=
  (w, opAssign sh w.a src m)

/-- Member call `w.swap(b)` (deep swap with a raw array at offset `y`)
as a transformer of the pair (wrapper object, memory). -/
def array_nd_ref.swapDeepM (w : array_nd_ref) (sh : List Nat) (y : Nat) (m : Mem) :
    array_nd_ref × Mem :=
  (w, swapDeep sh w.a y m)

/-- A braced initializer: either a scalar or a nested brace list. -/
inductive Lit where
  | s : Int → Lit
  | n : List Lit → Lit

/-- C++ aggregate initialization of an array of shape `sh` from a braced
initializer, as the flat list of its scalars: listed initializers fill
the leading elements, omitted trailing elements are value initialized to
zero.  This models the language rule applied to the temporary that a
braced right hand side of `array_nd_ref::operator=(array_type const&)`
materializes (exercised by the copy-init test in the test file). -/
def aggInit : List Nat → Lit → List Int
  | [], Lit.s v => [v]
  | [], Lit.n _ => [0]
  | e :: rest, Lit.n ls =>
      catRange e (fun i =>
        match ls[i]? with
        | some l => aggInit rest l
        | none => List.replicate rest.prod 0)
  | e :: rest, Lit.s _ => List.replicate (e * rest.prod) 0

/-- Call site semantics of `array_nd_ref{arr} = { braces }`: materialize
the aggregate initialized temporary at a scratch offset `tmp`, then run
`operator=` from it into the referred-to storage at `dst`. -/
def assignLit (sh : List Nat) (dst : Nat) (l : Lit) (tmp : Nat) (m : Mem) : Mem :=
  opAssign sh dst tmp (writeRun m tmp (aggInit sh l))

/-! Specification side definitions (used only to state refinement claims). -/

/-- Row major (outermost dimension major) flattening of the array viewed
by a wrapper of shape `sh` at handle `h`, following the words of the
specification for the ordering claim. -/
def flattenNd : List Nat → Nat → Mem → List Int
  | [], h, m => [m h]
  | e :: rest, h, m => catRange e (fun i => flattenNd rest (h + i * rest.prod) m)

/-- Lexicographic order on scalar sequences, following the words of the
specification: the first differing position decides, a proper prefix is
smaller. -/
def lexLtSpec : List Int → List Int → Bool
  | _, [] => false
  | [], _ :: _ => true
  | a :: as, b :: bs =>
      if a < b then true
      else if b < a then false
      else lexLtSpec as bs

/-- Memory for the copy-init test: `bool b[2][2] {{0,1},{1,0}}` at offset 0. -/
def memCopyInit : Mem := writeRun (fun _ => 0) 0 [0, 1, 1, 0]

/-- The partial literal `{{1}}` of the copy-init test. -/
def litPartial : Lit := Lit.n [Lit.n [Lit.s 1]]

/-- The sliding window test: `int Ns[4][2]{}` at offset 0; for each
offset `i < 3`, build `array_nd_ref<int[2][2]> window{&Ns[i]}` (handle
`2 * i`) and `window.fill(i)`. -/
def slidingMem : Mem :=
  forUp 3 (fun i mm => fill [2, 2] (2 * i) (Int.ofNat i) mm) (fun _ => 0)

/-- A concrete memory holding two 2 by 2 arrays at offsets 0 and 4 that
differ only in the last scalar. -/
def memLt : Mem := fun p => if p = 7 then 1 else 0

/-- A concrete constant memory. -/
def memEqW : Mem := fun _ => 3

/-- A concrete memory holding `bool a[2][2]` all false at offset 0 and
`bool b[2][2]` all true at offset 4 (the swap test of the test file). -/
def memSwapW : Mem := fun p => if p < 4 then 0 else 1

/-! Helper lemmas. -/

theorem Mem.update_apply (m : Mem) (p : Nat) (v : Int) (q : Nat) :
    Mem.update m p v q = if q = p then v else m q := rfl

theorem Mem.update_self (m : Mem) (p : Nat) : Mem.update m p (m p) = m := by
  funext q
  simp only [Mem.update]
  split
  · next hq => rw [hq]
  · rfl

theorem forUp_succ (k : Nat) (body : Nat → Mem → Mem) (m : Mem) :
    forUp (k + 1) body m = body k (forUp k body m) := rfl

theorem forUp_id (n : Nat) (body : Nat → Mem → Mem)
    (hbody : ∀ i, i < n → ∀ mm, body i mm = mm) (m : Mem) :
    forUp n body m = m := by
  induction n with
  | zero => rfl
  | succ k ih =>
      rw [forUp_succ, ih (fun i hi mm => hbody i (Nat.lt_succ_of_lt hi) mm),
        hbody k (Nat.lt_succ_self k)]

theorem readRun_length (n : Nat) : ∀ (h : Nat) (m : Mem), (readRun h n m).length = n := by
  induction n with
  | zero => intro h m; rfl
  | succ k ih => intro h m; simp [readRun, ih]

theorem readRun_append (a : Nat) :
    ∀ (b h : Nat) (m : Mem), readRun h (a + b) m = readRun h a m ++ readRun (h + a) b m := by
  induction a with
  | zero => intro b h m; simp [readRun]
  | succ k ih =>
      intro b h m
      have hn : k + 1 + b = (k + b) + 1 := by omega
      rw [hn]
      simp only [readRun, ih b (h + 1) m, List.cons_append]
      have hh : h + 1 + k = h + (k + 1) := by omega
      rw [hh]

theorem readRun_congr (n : Nat) :
    ∀ (x y : Nat) (m : Mem),
      readRun x n m = readRun y n m ↔ ∀ k, k < n → m (x + k) = m (y + k) := by
  induction n with
  | zero => intro x y m; simp [readRun]
  | succ j ih =>
      intro x y m
      simp only [readRun, List.cons.injEq, ih]
      constructor
      · rintro ⟨h0, hs⟩ k hk
        cases k with
        | zero => simpa using h0
        | succ k' =>
            have := hs k' (by omega)
            have hx : x + 1 + k' = x + (k' + 1) := by omega
            have hy : y + 1 + k' = y + (k' + 1) := by omega
            rwa [hx, hy] at this
      · intro hall
        refine ⟨by simpa using hall 0 (by omega), fun k hk => ?_⟩
        have := hall (k + 1) (by omega)
        have hx : x + 1 + k = x + (k + 1) := by omega
        have hy : y + 1 + k = y + (k + 1) := by omega
        rw [hx, hy]
        exact this

theorem catRange_readRun (s h : Nat) (m : Mem) :
    ∀ e, catRange e (fun i => readRun (h + i * s) s m) = readRun h (e * s) m := by
  intro e
  induction e with
  | zero => simp [catRange, readRun]
  | succ k ih =>
      simp only [catRange, ih]
      rw [show (k + 1) * s = k * s + s from by ring, readRun_append (k * s) s h m]

theorem flattenNd_eq_readRun :
    ∀ (sh : List Nat) (h : Nat) (m : Mem), flattenNd sh h m = readRun h sh.prod m := by
  intro sh
  induction sh with
  | nil => intro h m; simp [flattenNd, readRun]
  | cons e rest ih =>
      intro h m
      simp only [flattenNd, List.prod_cons]
      have : (fun i => flattenNd rest (h + i * rest.prod) m)
           = (fun i => readRun (h + i * rest.prod) rest.prod m) := by
        funext i; exact ih (h + i * rest.prod) m
      rw [this, catRange_readRun, Nat.mul_comm]

theorem flattenNd_length (sh : List Nat) (h : Nat) (m : Mem) :
    (flattenNd sh h m).length = sh.prod := by
  rw [flattenNd_eq_readRun, readRun_length]

theorem writeRun_below (vs : List Int) :
    ∀ (m : Mem) (h p : Nat), p < h → writeRun m h vs p = m p := by
  induction vs with
  | nil => intro m h p _; rfl
  | cons v vs ih =>
      intro m h p hp
      simp only [writeRun]
      rw [ih (Mem.update m h v) (h + 1) p (by omega)]
      simp [Mem.update]
      omega

theorem writeRun_get (vs : List Int) :
    ∀ (m : Mem) (h k : Nat), k < vs.length → writeRun m h vs (h + k) = vs.getD k 0 := by
  induction vs with
  | nil => intro m h k hk; simp at hk
  | cons v vs ih =>
      intro m h k hk
      cases k with
      | zero =>
          simp only [writeRun, Nat.add_zero]
          rw [writeRun_below vs _ (h + 1) h (by omega)]
          simp [Mem.update]
      | succ k' =>
          simp only [writeRun]
          have hk' : k' < vs.length := by simpa using hk
          have := ih (Mem.update m h v) (h + 1) k' hk'
          have hh : h + 1 + k' = h + (k' + 1) := by omega
          rw [hh] at this
          rw [this]
          rfl

theorem prod_pos_of_forall (sh : List Nat) (hpos : ∀ d ∈ sh, 0 < d) : 0 < sh.prod := by
  induction sh with
  | nil => simp
  | cons e rest ih =>
      simp only [List.prod_cons]
      exact Nat.mul_pos (hpos e (by simp)) (ih (fun d hd => hpos d (by simp [hd])))

theorem forall_chunk (e s : Nat) (hs : 0 < s) (P : Nat → Prop) :
    (∀ i, i < e → ∀ j, j < s → P (i * s + j)) ↔ (∀ k, k < e * s → P k) := by
  constructor
  · intro H k hk
    have h1 : k % s < s := Nat.mod_lt _ hs
    have h2 : k / s < e := Nat.div_lt_of_lt_mul (by rwa [Nat.mul_comm] at hk)
    have h3 : k / s * s + k % s = k := by
      rw [Nat.mul_comm]
      exact Nat.div_add_mod k s
    have := H (k / s) h2 (k % s) h1
    rwa [h3] at this
  · intro H i hi j hj
    apply H
    calc i * s + j < i * s + s := by omega
      _ = (i + 1) * s := by ring
      _ ≤ e * s := Nat.mul_le_mul_right s hi

theorem lexLtSpec_irrefl : ∀ a : List Int, lexLtSpec a a = false := by
  intro a
  induction a with
  | nil => rfl
  | cons v a ih => simp [lexLtSpec, ih]

theorem lexLtSpec_asymm : ∀ a b : List Int, lexLtSpec a b = true → lexLtSpec b a = false := by
  intro a
  induction a with
  | nil =>
      intro b _
      cases b with
      | nil => rfl
      | cons w b => rfl
  | cons v a ih =>
      intro b hab
      cases b with
      | nil => simp [lexLtSpec] at hab
      | cons w b =>
          simp only [lexLtSpec] at hab ⊢
          rcases lt_trichotomy v w with h | h | h
          · simp [h, not_lt.mpr (le_of_lt h)]
          · subst h
            simp only [lt_irrefl, if_false] at hab ⊢
            exact ih b hab
          · simp [h, not_lt.mpr (le_of_lt h)] at hab

theorem lexLtSpec_conn :
    ∀ a b : List Int, a.length = b.length →
      lexLtSpec a b = false → lexLtSpec b a = false → a = b := by
  intro a
  induction a with
  | nil =>
      intro b hlen _ _
      cases b with
      | nil => rfl
      | cons w b => simp at hlen
  | cons v a ih =>
      intro b hlen hab hba
      cases b with
      | nil => simp at hlen
      | cons w b =>
          simp only [lexLtSpec] at hab hba
          rcases lt_trichotomy v w with h | h | h
          · simp [h] at hab
          · subst h
            simp only [lt_irrefl, if_false] at hab hba
            have : a = b := ih b (by simpa using hlen) hab hba
            rw [this]
          · simp [h, not_lt.mpr (le_of_lt h)] at hba

theorem lexLtSpec_append :
    ∀ (a c b d : List Int), a.length = c.length →
      lexLtSpec (a ++ b) (c ++ d)
        = if a = c then lexLtSpec b d else lexLtSpec a c := by
  intro a
  induction a with
  | nil =>
      intro c b d hlen
      cases c with
      | nil => simp
      | cons w c => simp at hlen
  | cons v a ih =>
      intro c b d hlen
      cases c with
      | nil => simp at hlen
      | cons w c =>
          have hlen' : a.length = c.length := by simpa using hlen
          simp only [List.cons_append, lexLtSpec]
          rcases lt_trichotomy v w with h | h | h
          · have hne : (v :: a) ≠ (w :: c) := by
              intro he; injection he with h1 _; omega
            simp [h, hne]
          · subst h
            simp only [lt_irrefl, if_false, List.append_eq]
            rw [ih c b d hlen']
            by_cases hac : a = c
            · simp [hac]
            · have hne : (v :: a) ≠ (v :: c) := by
                intro he; injection he with _ h2; exact hac h2
              simp [hac, hne]
          · have hne : (v :: a) ≠ (w :: c) := by
              intro he; injection he with h1 _; omega
            simp [h, not_lt.mpr (le_of_lt h), hne]

theorem forUp_copy (s n dst src : Nat) (body : Nat → Mem → Mem)
    (hbody : ∀ i, i < n → ∀ (mm : Mem) (p : Nat), body i mm p =
        if dst + i * s ≤ p ∧ p < dst + i * s + s then mm (src + i * s + (p - (dst + i * s)))
        else mm p)
    (hdisj : dst + n * s ≤ src ∨ src + n * s ≤ dst) :
    ∀ k, k ≤ n → ∀ (m : Mem) (p : Nat), forUp k body m p =
        if dst ≤ p ∧ p < dst + k * s then m (src + (p - dst)) else m p := by
  intro k
  induction k with
  | zero =>
      intro _ m p
      simp only [forUp, Nat.zero_mul]
      rw [if_neg (by omega)]
  | succ k ih =>
      intro hk m p
      have hklt : k < n := by omega
      have hkle : k ≤ n := by omega
      have hmul : (k + 1) * s = k * s + s := by ring
      have hks : k * s + s ≤ n * s := by
        calc k * s + s = (k + 1) * s := by ring
          _ ≤ n * s := Nat.mul_le_mul_right s hk
      rw [forUp_succ, hbody k hklt]
      by_cases hc : dst + k * s ≤ p ∧ p < dst + k * s + s
      · rw [if_pos hc, ih hkle m (src + k * s + (p - (dst + k * s)))]
        have hnq : ¬ (dst ≤ src + k * s + (p - (dst + k * s))
            ∧ src + k * s + (p - (dst + k * s)) < dst + k * s) := by
          rcases hdisj with hd | hd <;> omega
        rw [if_neg hnq]
        have hqv : src + k * s + (p - (dst + k * s)) = src + (p - dst) := by omega
        have hfin : dst ≤ p ∧ p < dst + (k + 1) * s := by
          constructor <;> omega
        rw [if_pos hfin, hqv]
      · rw [if_neg hc, ih hkle m p]
        by_cases hp : dst ≤ p ∧ p < dst + k * s
        · rw [if_pos hp, if_pos (by constructor <;> omega)]
        · rw [if_neg hp, if_neg (by omega)]

theorem forUp_swap (s n x y : Nat) (body : Nat → Mem → Mem)
    (hbody : ∀ i, i < n → ∀ (mm : Mem) (p : Nat), body i mm p =
        if x + i * s ≤ p ∧ p < x + i * s + s then mm (y + i * s + (p - (x + i * s)))
        else if y + i * s ≤ p ∧ p < y + i * s + s then mm (x + i * s + (p - (y + i * s)))
        else mm p)
    (hdisj : x + n * s ≤ y ∨ y + n * s ≤ x) :
    ∀ k, k ≤ n → ∀ (m : Mem) (p : Nat), forUp k body m p =
        if x ≤ p ∧ p < x + k * s then m (y + (p - x))
        else if y ≤ p ∧ p < y + k * s then m (x + (p - y))
        else m p := by
  intro k
  induction k with
  | zero =>
      intro _ m p
      simp only [forUp, Nat.zero_mul]
      rw [if_neg (by omega), if_neg (by omega)]
  | succ k ih =>
      intro hk m p
      have hklt : k < n := by omega
      have hkle : k ≤ n := by omega
      have hmul : (k + 1) * s = k * s + s := by ring
      have hks : k * s + s ≤ n * s := by
        calc k * s + s = (k + 1) * s := by ring
          _ ≤ n * s := Nat.mul_le_mul_right s hk
      rw [forUp_succ, hbody k hklt]
      by_cases hcx : x + k * s ≤ p ∧ p < x + k * s + s
      · rw [if_pos hcx, ih hkle m (y + k * s + (p - (x + k * s)))]
        have h1 : ¬ (x ≤ y + k * s + (p - (x + k * s))
            ∧ y + k * s + (p - (x + k * s)) < x + k * s) := by
          rcases hdisj with hd | hd <;> omega
        have h2 : ¬ (y ≤ y + k * s + (p - (x + k * s))
            ∧ y + k * s + (p - (x + k * s)) < y + k * s) := by omega
        rw [if_neg h1, if_neg h2]
        have hqv : y + k * s + (p - (x + k * s)) = y + (p - x) := by
          rcases hdisj with hd | hd <;> omega
        have hfin : x ≤ p ∧ p < x + (k + 1) * s := by constructor <;> omega
        rw [if_pos hfin, hqv]
      · rw [if_neg hcx]
        by_cases hcy : y + k * s ≤ p ∧ p < y + k * s + s
        · rw [if_pos hcy, ih hkle m (x + k * s + (p - (y + k * s)))]
          have h1 : ¬ (x ≤ x + k * s + (p - (y + k * s))
              ∧ x + k * s + (p - (y + k * s)) < x + k * s) := by omega
          have h2 : ¬ (y ≤ x + k * s + (p - (y + k * s))
              ∧ x + k * s + (p - (y + k * s)) < y + k * s) := by
            rcases hdisj with hd | hd <;> omega
          rw [if_neg h1, if_neg h2]
          have hnx : ¬ (x ≤ p ∧ p < x + (k + 1) * s) := by
            rcases hdisj with hd | hd <;> omega
          have hfin : y ≤ p ∧ p < y + (k + 1) * s := by constructor <;> omega
          have hqv : x + k * s + (p - (y + k * s)) = x + (p - y) := by
            rcases hdisj with hd | hd <;> omega
          rw [if_neg hnx, if_pos hfin, hqv]
        · rw [if_neg hcy, ih hkle m p]
          by_cases hpx : x ≤ p ∧ p < x + k * s
          · rw [if_pos hpx, if_pos (by constructor <;> omega)]
          · rw [if_neg hpx]
            by_cases hpy : y ≤ p ∧ p < y + k * s
            · rw [if_pos hpy, if_neg (by omega), if_pos (by constructor <;> omega)]
            · rw [if_neg hpy, if_neg (by omega), if_neg (by omega)]

theorem swapScalar_apply (p q : Nat) (m : Mem) (r : Nat) :
    swapScalar p q m r = if r = q then m p else if r = p then m q else m r := rfl

theorem swapScalar_self (p : Nat) (m : Mem) : swapScalar p p m = m := by
  funext q
  rw [swapScalar_apply]
  by_cases h : q = p
  · simp [h]
  · simp [h]

theorem opAssign_apply :
    ∀ (sh : List Nat), sh ≠ [] → ∀ (dst src : Nat) (m : Mem),
      (dst + sh.prod ≤ src ∨ src + sh.prod ≤ dst) → ∀ p,
      opAssign sh dst src m p =
        if dst ≤ p ∧ p < dst + sh.prod then m (src + (p - dst)) else m p := by
  intro sh
  induction sh with
  | nil => intro h; exact absurd rfl h
  | cons e rest ih =>
      intro _ dst src m hdisj p
      cases rest with
      | nil =>
          have hpr : ([e] : List Nat).prod = e := by simp
          rw [hpr] at hdisj ⊢
          have hbody : ∀ i, i < e → ∀ (mm : Mem) (q : Nat),
              Mem.update mm (dst + i) (mm (src + i)) q =
                if dst + i * 1 ≤ q ∧ q < dst + i * 1 + 1
                then mm (src + i * 1 + (q - (dst + i * 1))) else mm q := by
            intro i _ mm q
            rw [Mem.update_apply]
            by_cases hq : q = dst + i
            · rw [if_pos hq, if_pos (by omega)]
              congr 1
              omega
            · rw [if_neg hq, if_neg (by omega)]
          have hd1 : dst + e * 1 ≤ src ∨ src + e * 1 ≤ dst := by
            simpa [Nat.mul_one] using hdisj
          have hc := forUp_copy 1 e dst src _ hbody hd1 e le_rfl m p
          simp only [opAssign]
          rw [hc]
          simp [Nat.mul_one]
      | cons r rs =>
          have hpr : (e :: r :: rs).prod = e * (r :: rs).prod := List.prod_cons
          have hbody : ∀ i, i < e → ∀ (mm : Mem) (q : Nat),
              opAssign (r :: rs) (dst + i * (r :: rs).prod) (src + i * (r :: rs).prod) mm q =
                if dst + i * (r :: rs).prod ≤ q
                    ∧ q < dst + i * (r :: rs).prod + (r :: rs).prod
                then mm (src + i * (r :: rs).prod + (q - (dst + i * (r :: rs).prod)))
                else mm q := by
            intro i hi mm q
            have h1 : (i + 1) * (r :: rs).prod ≤ e * (r :: rs).prod :=
              Nat.mul_le_mul_right _ hi
            have h2 : (i + 1) * (r :: rs).prod = i * (r :: rs).prod + (r :: rs).prod := by
              ring
            rw [hpr] at hdisj
            have hsub : (dst + i * (r :: rs).prod) + (r :: rs).prod
                  ≤ src + i * (r :: rs).prod
                ∨ (src + i * (r :: rs).prod) + (r :: rs).prod
                  ≤ dst + i * (r :: rs).prod := by
              rcases hdisj with hd | hd
              · left; omega
              · right; omega
            exact ih (by simp) (dst + i * (r :: rs).prod) (src + i * (r :: rs).prod) mm hsub q
          have hd2 : dst + e * (r :: rs).prod ≤ src ∨ src + e * (r :: rs).prod ≤ dst := by
            rw [hpr] at hdisj
            exact hdisj
          have hc := forUp_copy ((r :: rs).prod) e dst src _ hbody hd2 e le_rfl m p
          simp only [opAssign]
          rw [hc, hpr]

theorem swapDeep_apply :
    ∀ (sh : List Nat), sh ≠ [] → ∀ (x y : Nat) (m : Mem),
      (x + sh.prod ≤ y ∨ y + sh.prod ≤ x) → ∀ p,
      swapDeep sh x y m p =
        if x ≤ p ∧ p < x + sh.prod then m (y + (p - x))
        else if y ≤ p ∧ p < y + sh.prod then m (x + (p - y))
        else m p := by
  intro sh
  induction sh with
  | nil => intro h; exact absurd rfl h
  | cons e rest ih =>
      intro _ x y m hdisj p
      cases rest with
      | nil =>
          have hpr : ([e] : List Nat).prod = e := by simp
          rw [hpr] at hdisj ⊢
          have hbody : ∀ i, i < e → ∀ (mm : Mem) (q : Nat),
              swapScalar (x + i) (y + i) mm q =
                if x + i * 1 ≤ q ∧ q < x + i * 1 + 1
                then mm (y + i * 1 + (q - (x + i * 1)))
                else if y + i * 1 ≤ q ∧ q < y + i * 1 + 1
                then mm (x + i * 1 + (q - (y + i * 1)))
                else mm q := by
            intro i hi mm q
            rw [swapScalar_apply]
            by_cases h1 : q = y + i
            · rw [if_pos h1, if_neg (by omega), if_pos (by omega)]
              congr 1
              omega
            · rw [if_neg h1]
              by_cases h2 : q = x + i
              · rw [if_pos h2, if_pos (by omega)]
                congr 1
                omega
              · rw [if_neg h2, if_neg (by omega), if_neg (by omega)]
          have hd1 : x + e * 1 ≤ y ∨ y + e * 1 ≤ x := by
            simpa [Nat.mul_one] using hdisj
          have hc := forUp_swap 1 e x y _ hbody hd1 e le_rfl m p
          simp only [swapDeep]
          rw [hc]
          simp [Nat.mul_one]
      | cons r rs =>
          have hpr : (e :: r :: rs).prod = e * (r :: rs).prod := List.prod_cons
          have hbody : ∀ i, i < e → ∀ (mm : Mem) (q : Nat),
              swapDeep (r :: rs) (x + i * (r :: rs).prod) (y + i * (r :: rs).prod) mm q =
                if x + i * (r :: rs).prod ≤ q
                    ∧ q < x + i * (r :: rs).prod + (r :: rs).prod
                then mm (y + i * (r :: rs).prod + (q - (x + i * (r :: rs).prod)))
                else if y + i * (r :: rs).prod ≤ q
                    ∧ q < y + i * (r :: rs).prod + (r :: rs).prod
                then mm (x + i * (r :: rs).prod + (q - (y + i * (r :: rs).prod)))
                else mm q := by
            intro i hi mm q
            have h1 : (i + 1) * (r :: rs).prod ≤ e * (r :: rs).prod :=
              Nat.mul_le_mul_right _ hi
            have h2 : (i + 1) * (r :: rs).prod = i * (r :: rs).prod + (r :: rs).prod := by
              ring
            rw [hpr] at hdisj
            have hsub : (x + i * (r :: rs).prod) + (r :: rs).prod
                  ≤ y + i * (r :: rs).prod
                ∨ (y + i * (r :: rs).prod) + (r :: rs).prod
                  ≤ x + i * (r :: rs).prod := by
              rcases hdisj with hd | hd
              · left; omega
              · right; omega
            exact ih (by simp) (x + i * (r :: rs).prod) (y + i * (r :: rs).prod) mm hsub q
          have hd2 : x + e * (r :: rs).prod ≤ y ∨ y + e * (r :: rs).prod ≤ x := by
            rw [hpr] at hdisj
            exact hdisj
          have hc := forUp_swap ((r :: rs).prod) e x y _ hbody hd2 e le_rfl m p
          simp only [swapDeep]
          rw [hc, hpr]

theorem opAssign_self : ∀ (sh : List Nat) (h : Nat) (m : Mem), opAssign sh h h m = m := by
  intro sh
  induction sh with
  | nil => intro h m; rfl
  | cons e rest ih =>
      intro h m
      cases rest with
      | nil =>
          simp only [opAssign]
          exact forUp_id e _ (fun i _ mm => Mem.update_self mm (h + i)) m
      | cons r rs =>
          simp only [opAssign]
          exact forUp_id e _ (fun i _ mm => ih (h + i * (r :: rs).prod) mm) m

theorem swapDeep_self : ∀ (sh : List Nat) (h : Nat) (m : Mem), swapDeep sh h h m = m := by
  intro sh
  induction sh with
  | nil => intro h m; rfl
  | cons e rest ih =>
      intro h m
      cases rest with
      | nil =>
          simp only [swapDeep]
          exact forUp_id e _ (fun i _ mm => swapScalar_self (h + i) mm) m
      | cons r rs =>
          simp only [swapDeep]
          exact forUp_id e _ (fun i _ mm => ih (h + i * (r :: rs).prod) mm) m

theorem eqOp_iff :
    ∀ (sh : List Nat), ValidShape sh → ∀ (x y : Nat) (m : Mem),
      (eqOp sh x y m = true ↔ ∀ k, k < sh.prod → m (x + k) = m (y + k)) := by
  intro sh
  induction sh with
  | nil => intro hv; exact absurd rfl hv.1
  | cons e rest ih =>
      intro hv x y m
      cases rest with
      | nil =>
          simp only [eqOp, List.all_eq_true, List.mem_range, decide_eq_true_eq,
            List.prod_cons, List.prod_nil, Nat.mul_one]
      | cons r rs =>
          have hvr : ValidShape (r :: rs) :=
            ⟨List.cons_ne_nil r rs, fun d hd => hv.2 d (by simp [hd])⟩
          have hs : 0 < (r :: rs).prod := prod_pos_of_forall _ hvr.2
          simp only [eqOp, List.all_eq_true, List.mem_range, List.prod_cons]
          constructor
          · intro H
            apply (forall_chunk e ((r :: rs).prod) hs
              (fun k => m (x + k) = m (y + k))).mp
            intro i hi j hj
            have hsub := (ih hvr (x + i * (r :: rs).prod) (y + i * (r :: rs).prod) m).mp
              (H i hi) j hj
            have hx : x + i * (r :: rs).prod + j = x + (i * (r :: rs).prod + j) := by omega
            have hy : y + i * (r :: rs).prod + j = y + (i * (r :: rs).prod + j) := by omega
            rwa [hx, hy] at hsub
          · intro H i hi
            apply (ih hvr (x + i * (r :: rs).prod) (y + i * (r :: rs).prod) m).mpr
            intro j hj
            have := (forall_chunk e ((r :: rs).prod) hs
              (fun k => m (x + k) = m (y + k))).mpr H i hi j hj
            have hx : x + i * (r :: rs).prod + j = x + (i * (r :: rs).prod + j) := by omega
            have hy : y + i * (r :: rs).prod + j = y + (i * (r :: rs).prod + j) := by omega
            rw [hx, hy]
            exact this

theorem lexScalars_spec (m : Mem) :
    ∀ (n x y : Nat), lexScalars n x y m = lexLtSpec (readRun x n m) (readRun y n m) := by
  intro n
  induction n with
  | zero => intro x y; rfl
  | succ k ih =>
      intro x y
      simp only [lexScalars, readRun, lexLtSpec, ih]

theorem ltLoop_spec (s : Nat) (m : Mem) (cmp : Nat → Nat → Bool)
    (hcmp : ∀ p q, cmp p q = lexLtSpec (readRun p s m) (readRun q s m)) :
    ∀ (k x y : Nat), ltLoop cmp s k x y = lexLtSpec (readRun x (k * s) m) (readRun y (k * s) m) := by
  intro k
  induction k with
  | zero => intro x y; simp [ltLoop, readRun, lexLtSpec]
  | succ k ih =>
      intro x y
      have hx : readRun x ((k + 1) * s) m = readRun x s m ++ readRun (x + s) (k * s) m := by
        rw [show (k + 1) * s = s + k * s from by ring, readRun_append s (k * s) x m]
      have hy : readRun y ((k + 1) * s) m = readRun y s m ++ readRun (y + s) (k * s) m := by
        rw [show (k + 1) * s = s + k * s from by ring, readRun_append s (k * s) y m]
      rw [hx, hy,
        lexLtSpec_append _ _ _ _ (by rw [readRun_length, readRun_length])]
      simp only [ltLoop, hcmp, ih]
      by_cases hac : readRun x s m = readRun y s m
      · simp [hac, lexLtSpec_irrefl]
      · simp only [hac, if_false]
        cases hlt : lexLtSpec (readRun x s m) (readRun y s m) with
        | true => simp
        | false =>
            simp only [Bool.false_eq_true, if_false]
            cases hgt : lexLtSpec (readRun y s m) (readRun x s m) with
            | true => simp
            | false =>
                exact absurd
                  (lexLtSpec_conn _ _ (by rw [readRun_length, readRun_length]) hlt hgt) hac

theorem catRange_length_const (c : Nat) (f : Nat → List Int) (hf : ∀ i, (f i).length = c) :
    ∀ e, (catRange e f).length = e * c := by
  intro e
  induction e with
  | zero => simp [catRange]
  | succ k ih =>
      simp only [catRange, List.length_append, ih, hf k]
      ring

theorem aggInit_length : ∀ (sh : List Nat) (l : Lit), (aggInit sh l).length = sh.prod := by
  intro sh
  induction sh with
  | nil => intro l; cases l <;> simp [aggInit]
  | cons e rest ih =>
      intro l
      cases l with
      | s v => simp [aggInit, List.prod_cons]
      | n ls =>
          simp only [aggInit, List.prod_cons]
          apply catRange_length_const
          intro i
          cases h : ls[i]? with
          | some l' => simp only [h]; exact ih l'
          | none => simp only [h, List.length_replicate]

/-! Claim theorems. -/

/-- Claim C1 (code bug): the shallow swap forms do not exchange the two
handles.  The member form `x.swap(y)` takes its argument by value, so it
sets the handle of `x` to the old handle of `y` but leaves `y` itself
untouched; the free form `swap(x, y)` takes both wrappers by value, so
neither caller wrapper changes at all.  Evaluated at handles 0 and 100:
the claim would require the result (100, 0) from either form. -/
theorem shallow_swap_does_not_exchange_handles :
    callSwapRefMember ⟨0⟩ ⟨100⟩ = (⟨100⟩, ⟨100⟩)
    ∧ (callSwapRefMember ⟨0⟩ ⟨100⟩).2 ≠ (⟨0⟩ : array_nd_ref)
    ∧ callSwapRefFree ⟨0⟩ ⟨100⟩ = (⟨0⟩, ⟨100⟩)
    ∧ (callSwapRefFree ⟨0⟩ ⟨100⟩).1 ≠ (⟨100⟩ : array_nd_ref) := by
  exact ⟨rfl, by decide, rfl, by decide⟩

/-- Claim C2 (counterexample): with `bool b[2][2] {{0,1},{1,0}}` the
assignment `array_nd_ref{b} = {{1}}` of the copy-init test sets the
unspecified trailing element b[0][1] (offset 1) to 0, while its prior
value was 1 — unspecified trailing elements are not left at their prior
value. -/
theorem partial_literal_prior_value_cex :
    assignLit [2, 2] 0 litPartial 10 memCopyInit 1 = 0
    ∧ memCopyInit 1 = 1
    ∧ ¬ assignLit [2, 2] 0 litPartial 10 memCopyInit 1 = memCopyInit 1 := by
  exact ⟨by decide, by decide, by decide⟩

/-- Claim C2 (amended): assignment from a partially specified nested
literal materializes a full array by aggregate initialization — omitted
elements are value initialized to zero — and deep-copies every element,
so after the assignment every element of the target (including the
unspecified trailing ones, which become zero) holds the aggregate
initialized value, not its prior value. -/
theorem assign_literal_aggregate_zero_fill (sh : List Nat) (hsh : sh ≠ [])
    (dst tmp : Nat) (l : Lit) (m : Mem)
    (hdisj : dst + sh.prod ≤ tmp ∨ tmp + sh.prod ≤ dst) :
    ∀ k, k < sh.prod → assignLit sh dst l tmp m (dst + k) = (aggInit sh l).getD k 0 := by
  intro k hk
  unfold assignLit
  rw [opAssign_apply sh hsh dst tmp _ hdisj (dst + k), if_pos ⟨by omega, by omega⟩,
    show dst + k - dst = k from by omega]
  exact writeRun_get (aggInit sh l) m tmp k (by rw [aggInit_length]; exact hk)

theorem assign_literal_aggregate_zero_fill_witness :
    (([2, 2] : List Nat) ≠ [])
    ∧ (0 + ([2, 2] : List Nat).prod ≤ 10 ∨ 10 + ([2, 2] : List Nat).prod ≤ 0)
    ∧ ∀ k, k < ([2, 2] : List Nat).prod →
        assignLit [2, 2] 0 litPartial 10 memCopyInit (0 + k)
          = (aggInit [2, 2] litPartial).getD k 0 :=
  ⟨by decide, by decide,
    assign_literal_aggregate_zero_fill [2, 2] (by decide) 0 10 litPartial memCopyInit
      (by decide)⟩

/-- Claim C3: for same shape wrappers, `x < y` holds exactly when the
row major (outermost dimension major) flattening of the scalars of x is
lexicographically less than that of y; the recursive subarray loop of
`operator<` computes exactly this. -/
theorem lt_iff_flat_lex (sh : List Nat) (hsh : sh ≠ []) (x y : Nat) (m : Mem) :
    ltOp sh x y m = lexLtSpec (flattenNd sh x m) (flattenNd sh y m) := by
  induction sh generalizing x y with
  | nil => exact absurd rfl hsh
  | cons e rest ih =>
      cases rest with
      | nil =>
          simp only [ltOp]
          rw [lexScalars_spec m e x y, flattenNd_eq_readRun, flattenNd_eq_readRun]
          simp [List.prod_cons, List.prod_nil, Nat.mul_one]
      | cons r rs =>
          simp only [ltOp]
          have hcmp : ∀ p q, ltOp (r :: rs) p q m
              = lexLtSpec (readRun p ((r :: rs).prod) m) (readRun q ((r :: rs).prod) m) := by
            intro p q
            rw [ih (by simp), flattenNd_eq_readRun, flattenNd_eq_readRun]
          rw [ltLoop_spec ((r :: rs).prod) m _ hcmp e x y,
            flattenNd_eq_readRun, flattenNd_eq_readRun]
          simp [List.prod_cons]

theorem lt_iff_flat_lex_witness :
    (([2, 2] : List Nat) ≠ [])
    ∧ ltOp [2, 2] 0 4 memLt = lexLtSpec (flattenNd [2, 2] 0 memLt) (flattenNd [2, 2] 4 memLt) :=
  ⟨by decide, lt_iff_flat_lex [2, 2] (by decide) 0 4 memLt⟩

/-- Claim C4: for same shape wrappers (the member comparison against a
raw array wraps it and calls the same operator), equality holds exactly
when every corresponding scalar element is equal. -/
theorem eq_iff_elementwise (sh : List Nat) (hsh : ValidShape sh) (x y : Nat) (m : Mem) :
    eqOp sh x y m = true ↔ ∀ k, k < sh.prod → m (x + k) = m (y + k) :=
  eqOp_iff sh hsh x y m

theorem eq_iff_elementwise_witness :
    ValidShape [2, 2]
    ∧ (eqOp [2, 2] 0 4 memEqW = true
        ↔ ∀ k, k < ([2, 2] : List Nat).prod → memEqW (0 + k) = memEqW (4 + k)) :=
  ⟨by decide, eq_iff_elementwise [2, 2] (by decide) 0 4 memEqW⟩

/-- Claim C5: deep swap of a wrapper with a distinct (disjoint) raw array
of the same shape exchanges the scalars element by element: afterwards
every element of the referred-to storage holds the previous value of the
array at that position and vice versa. -/
theorem swap_raw_array_deep_exchange (sh : List Nat) (hsh : sh ≠ []) (x y : Nat) (m : Mem)
    (hdisj : x + sh.prod ≤ y ∨ y + sh.prod ≤ x) :
    ∀ k, k < sh.prod →
      swapDeep sh x y m (x + k) = m (y + k) ∧ swapDeep sh x y m (y + k) = m (x + k) := by
  intro k hk
  constructor
  · rw [swapDeep_apply sh hsh x y m hdisj (x + k), if_pos ⟨by omega, by omega⟩,
      show y + (x + k - x) = y + k from by omega]
  · have hnx : ¬ (x ≤ y + k ∧ y + k < x + sh.prod) := by
      rcases hdisj with hd | hd <;> omega
    rw [swapDeep_apply sh hsh x y m hdisj (y + k), if_neg hnx,
      if_pos ⟨by omega, by omega⟩, show x + (y + k - y) = x + k from by omega]

theorem swap_raw_array_deep_exchange_witness :
    (([2, 2] : List Nat) ≠ [])
    ∧ (0 + ([2, 2] : List Nat).prod ≤ 4 ∨ 4 + ([2, 2] : List Nat).prod ≤ 0)
    ∧ ∀ k, k < ([2, 2] : List Nat).prod →
        swapDeep [2, 2] 0 4 memSwapW (0 + k) = memSwapW (4 + k)
        ∧ swapDeep [2, 2] 0 4 memSwapW (4 + k) = memSwapW (0 + k) :=
  ⟨by decide, by decide,
    swap_raw_array_deep_exchange [2, 2] (by decide) 0 4 memSwapW (by decide)⟩

/-- Claim C6: checked access `at(I)` signals out of range exactly when I
is not less than the outermost extent, and for I below the extent it
returns the offset of element I of the referred-to storage (the same
reference `a[I]` that unchecked indexing designates); it reads and
writes no storage. -/
theorem at_bounds_check (sh : List Nat) (h I : Nat) :
    ((∃ e, atOp sh h I = Except.error e) ↔ sh.headD 0 ≤ I)
    ∧ (I < sh.headD 0 → atOp sh h I = Except.ok (h + I * sh.tail.prod)) := by
  constructor
  · constructor
    · rintro ⟨e, he⟩
      by_contra hI
      rw [atOp, if_neg (by omega)] at he
      exact Except.noConfusion he
    · intro hI
      exact ⟨"array_nd_ref::at", by rw [atOp, if_pos hI]⟩
  · intro hI
    rw [atOp, if_neg (by omega)]

theorem at_bounds_check_witness :
    ((∃ e, atOp [3] 0 5 = Except.error e) ↔ ([3] : List Nat).headD 0 ≤ 5)
    ∧ ((1 : Nat) < ([3] : List Nat).headD 0
        ∧ atOp [3] 0 1 = Except.ok (0 + 1 * ([3] : List Nat).tail.prod)) :=
  ⟨(at_bounds_check [3] 0 5).1, by decide, (at_bounds_check [3] 0 1).2 (by decide)⟩

/-- Claim C7: the self operations are no-ops.  Deep assignment of a
wrapper from the very array it refers to and deep swap with that same
array leave the whole memory unchanged, and shallow swap of a wrapper
with itself leaves its handle unchanged. -/
theorem self_operations_noop (sh : List Nat) (h : Nat) (m : Mem) (w : array_nd_ref) :
    opAssign sh h h m = m
    ∧ swapDeep sh h h m = m
    ∧ callSwapRefMember w w = (w, w) := by
  refine ⟨opAssign_self sh h m, swapDeep_self sh h m, ?_⟩
  cases w
  rfl

/-- Claim C8: the sliding window test.  Starting from `int Ns[4][2]{}`,
filling the window `array_nd_ref<int[2][2]>{&Ns[i]}` with value i for
i = 0, 1, 2 leaves Ns holding exactly {{0,0},{1,1},{2,2},{2,2}}. -/
theorem sliding_window_fill : readRun 0 8 slidingMem = [0, 0, 1, 1, 2, 2, 2, 2] := by
  decide

/-- Claim C9: fill, deep assignment and deep swap never move the handle
of the wrapper they are called on: the wrapper object after the member
call is the wrapper object before it. -/
theorem deep_ops_preserve_handle (w : array_nd_ref) (sh : List Nat) (v : Int)
    (src y : Nat) (m : Mem) :
    (array_nd_ref.fillM w sh v m).1 = w
    ∧ (array_nd_ref.assignM w sh src m).1 = w
    ∧ (array_nd_ref.swapDeepM w sh y m).1 = w :=
  ⟨rfl, rfl, rfl⟩

/-- Claim C10: for an in-range index all four single index access paths
designate the same offset of the referred-to storage: direct indexing
(operator[]), wrapped indexing (operator()), checked access (at), and
positional get; hence a write through one is observed through any other. -/
theorem index_paths_agree (sh : List Nat) (hsh : sh ≠ []) (h I : Nat)
    (hI : I < sh.headD 0) :
    callOp sh h I = indexOp sh h I
    ∧ atOp sh h I = Except.ok (indexOp sh h I)
    ∧ getOp sh h I = indexOp sh h I
    ∧ ∀ (m : Mem) (v : Int), Mem.update m (indexOp sh h I) v (callOp sh h I) = v := by
  have hcall : callOp sh h I = indexOp sh h I := by
    cases sh with
    | nil => exact absurd rfl hsh
    | cons e rest =>
        cases rest with
        | nil => simp [callOp, indexOp]
        | cons r rs => rfl
  refine ⟨hcall, ?_, rfl, ?_⟩
  · rw [atOp, if_neg (by omega)]
    rfl
  · intro m v
    rw [hcall]
    simp [Mem.update]

theorem index_paths_agree_witness :
    (([2, 3] : List Nat) ≠ []) ∧ (1 : Nat) < ([2, 3] : List Nat).headD 0
    ∧ (callOp [2, 3] 0 1 = indexOp [2, 3] 0 1
        ∧ atOp [2, 3] 0 1 = Except.ok (indexOp [2, 3] 0 1)
        ∧ getOp [2, 3] 0 1 = indexOp [2, 3] 0 1
        ∧ ∀ (m : Mem) (v : Int), Mem.update m (indexOp [2, 3] 0 1) v (callOp [2, 3] 0 1) = v) :=
  ⟨by decide, by decide, index_paths_agree [2, 3] (by decide) 0 1 (by decide)⟩
